import Mathlib

/-!
Verification development for the `eleven` HTTP formatting service
(`src/main.go`).  The service exposes `POST /format?type=json|xml|html`,
which re-serializes the request body, and `GET /metrics`, which reports
aggregate usage counters.

Shallow embedding conventions:
* byte strings are `List Nat` (one entry per byte / code point);
* Go `int64` counters, durations (nanoseconds) and sizes are `Nat`
  (they are non-negative in every reachable state: counters only grow,
  `time.Since` of a monotonic clock is non-negative, `len` is non-negative,
  and the `int64` wrap-around point is never reached by these workloads);
* Go integer division on these non-negative values coincides with `Nat`
  division (both truncate);
* fallible operations return `Option` / `Except`.
-/

namespace Eleven

/-! ### Metrics accumulator (`FormatAPIMetrics`, src/main.go lines 21-29)

The Go struct holds four counters guarded by a mutex.  The mutex itself is
represented by atomicity of the operations below: each `MetricsOp` is one
critical section, exactly as delimited by `mu.Lock()`/`mu.Unlock()` in the
source. -/

structure FormatAPIMetrics where
  RequestCount : Nat
  ErrorCount : Nat
  TotalDuration : Nat
  MaxPayloadSize : Nat
deriving DecidableEq, Repr

/-- The global `var formatMetrics = &FormatAPIMetrics\x7b\x7d` — the zero value. -/
def initialMetrics : FormatAPIMetrics :=
  { RequestCount := 0, ErrorCount := 0, TotalDuration := 0, MaxPayloadSize := 0 }

/-- The two kinds of critical sections executed against the accumulator:
`incError` is the handler's `ErrorCount++` block (repeated at lines 131-133,
143-145, 164-166, 173-175 of src/main.go), and `recordRequest d p` is the
middleware's final block (lines 69-75): `RequestCount++`,
`TotalDuration += duration`, and the conditional max update. -/
inductive MetricsOp where
  | incError
  | recordRequest (duration : Nat) (payload : Nat)
deriving DecidableEq, Repr

/-- Effect of one critical section on the accumulator. -/
def applyOp (m : FormatAPIMetrics) : MetricsOp → FormatAPIMetrics
  | .incError => { m with ErrorCount := m.ErrorCount + 1 }
  | .recordRequest d p =>
    { m with
      RequestCount := m.RequestCount + 1
      TotalDuration := m.TotalDuration + d
      MaxPayloadSize := if p > m.MaxPayloadSize then p else m.MaxPayloadSize }

/-- Effect of a sequence of critical sections, oldest first. -/
def applyOps (m : FormatAPIMetrics) (ops : List MetricsOp) : FormatAPIMetrics :=
  ops.foldl applyOp m

/-! ### The `/metrics` endpoint (`MetricsHandler`, src/main.go lines 189-207) -/

/-- The JSON document written by `MetricsHandler`, field for field. -/
structure MetricsReport where
  request_count : Nat
  error_count : Nat
  total_duration_ms : Nat
  average_duration_ms : Nat
  max_payload_size_bytes : Nat
deriving DecidableEq, Repr

/-- Go `time.Duration.Milliseconds()`: nanoseconds divided by 10^6, truncated.
For the non-negative durations of this model that is `Nat` division. -/
def durationMilliseconds (d : Nat) : Nat := d / 1000000

/-- The body of `MetricsHandler` under the lock: guard the division by `RequestCount > 0`,
then report the five fields. -/
def MetricsHandler (m : FormatAPIMetrics) : MetricsReport :=
  let averageDuration : Nat :=
    if m.RequestCount > 0 then m.TotalDuration / m.RequestCount else 0
  { request_count := m.RequestCount
    error_count := m.ErrorCount
    total_duration_ms := durationMilliseconds m.TotalDuration
    average_duration_ms := durationMilliseconds averageDuration
    max_payload_size_bytes := m.MaxPayloadSize }

/-! ### Formatter dispatch and the request handler
(`formatHandler`, src/main.go lines 125-186) -/

/-- The three supported formatters, for tracking which one a request invoked. -/
inductive FormatterKind where
  | json
  | xml
  | html
deriving DecidableEq, Repr

/-- ASCII lowercasing, the fragment of `strings.ToLower` exercised by the
handler: the subsequent comparisons are against the ASCII literals `json`,
`xml`, `html`, for which Unicode case folding and ASCII case folding agree. -/
def toLowerAscii (s : String) : String :=
  String.mk (s.data.map fun c =>
    if 65 ≤ c.toNat ∧ c.toNat ≤ 90 then Char.ofNat (c.toNat + 32) else c)

/-- What a handler invocation produced: the HTTP status, the response text
(error message or a marker for the formatted payload), whether the handler
executed an `ErrorCount++` critical section, and which formatter (if any)
it invoked. -/
structure HandlerResult where
  status : Nat
  message : String
  errorInc : Bool
  invoked : Option FormatterKind
deriving Repr

def missingTypeMessage : String :=
  "Missing \x27type\x27 parameter. Specify \x27json\x27, \x27xml\x27, or \x27html\x27."

def invalidTypeMessage : String :=
  "Invalid \x27type\x27 parameter. Supported types are \x27json\x27, \x27xml\x27, and \x27html\x27."

def bodyReadFailedMessage : String := "Failed to read request body"

/-- Map a formatter outcome to the handler's response, mirroring the tail of
`formatHandler`: an error gives `500` with `Formatting failed: ...` and an
`ErrorCount++`; success gives `200` with the formatted bytes. -/
def respondFormatted (kind : FormatterKind) :
    Except String (List Nat) → HandlerResult
  | .error e =>
    { status := 500, message := "Formatting failed: " ++ e
      errorInc := true, invoked := some kind }
  | .ok _ =>
    { status := 200, message := "", errorInc := false, invoked := some kind }

/-! ### The generic JSON value model (`formatJSON`, src/main.go lines 80-92)

`formatJSON` runs `json.Unmarshal(data, &parsedJSON)` with `parsedJSON` an
empty interface, then `json.MarshalIndent(parsedJSON, "", "  ")`.  The
decoder maps JSON text to the generic Go domain: `nil`, `bool`, `float64`,
`string`, `[]interface`, `map[string]interface`.  That domain is embedded as
`JSONValue` below, with two documented abstractions:

* numbers: Go parses every number literal into a `float64` and the encoder
  prints the shortest decimal that re-parses to the same `float64`; floating
  point is outside this shallow embedding.  The model's number domain is the
  exact integers (`Int`) and the modeled grammar covers only the integer
  literals (optional minus, no leading zeros; no fraction or exponent).  The
  model agrees with the program just on integers the `float64` decode
  represents exactly: for example the program formats `9007199254740993` as
  `9007199254740992` while the exact model echoes it.  Theorems over this
  model therefore speak about an idealized integer domain, not about the
  program's `float64` number semantics.
* strings: modeled at code-point level as `List Nat`; the UTF-8 byte coding
  is left implicit (it is a bijection on valid scalars and preserves
  lexicographic key order, which is all the development relies on), and a
  `\uXXXX` escape is decoded to its 16-bit value without the decoder's
  surrogate-pair recombination.

Go's `map[string]interface` is unordered and compares (`reflect.DeepEqual`)
as a set of entries; `json.Marshal` prints its keys sorted.  The model keeps
each object as the canonical key-sorted association list — exactly the form
`MarshalIndent` prints — and builds it by sorted insertion with last-wins
overwrite, matching the decoder's map writes for duplicate keys. -/

inductive JSONValue where
  | null
  | bool (b : Bool)
  | num (n : Int)
  | str (s : List Nat)
  | arr (items : List JSONValue)
  | obj (members : List (List Nat × JSONValue))
deriving Inhabited

/-- Byte-wise lexicographic order on keys, as `sort.Strings` orders the map
keys inside Go's object encoder (UTF-8 is order-preserving, so comparing
code-point lists is the same order). -/
def keyLt : List Nat → List Nat → Bool
  | [], [] => false
  | [], _ :: _ => true
  | _ :: _, [] => false
  | a :: as, b :: bs => if a < b then true else if b < a then false else keyLt as bs

/-- Insert into a key-sorted association list, overwriting an existing
binding: the canonical-form image of one `map[k] = v` store. -/
def insertKV (k : List Nat) (v : JSONValue) :
    List (List Nat × JSONValue) → List (List Nat × JSONValue)
  | [] => [(k, v)]
  | (k2, v2) :: tl =>
    if k = k2 then (k, v) :: tl
    else if keyLt k k2 then (k, v) :: (k2, v2) :: tl
    else (k2, v2) :: insertKV k v tl

/-- Whether `k` is strictly below every key of the list. -/
def keyBelow (k : List Nat) : List (List Nat × JSONValue) → Bool
  | [] => true
  | (k2, _) :: tl => keyLt k k2 && keyBelow k tl

/-- Every key of the list is strictly below `k`. -/
def keysAllBelow (ms : List (List Nat × JSONValue)) (k : List Nat) : Bool :=
  ms.all fun kv => keyLt kv.1 k

/-- The association list is strictly key-sorted (the canonical object form). -/
def objSorted : List (List Nat × JSONValue) → Bool
  | [] => true
  | (k, _) :: tl => keyBelow k tl && objSorted tl

mutual
/-- Every object inside the value is in canonical sorted form — the invariant
every decoder output satisfies, and what object-level `DeepEqual` needs. -/
def wfValue : JSONValue → Bool
  | .null => true
  | .bool _ => true
  | .num _ => true
  | .str _ => true
  | .arr items => wfItems items
  | .obj ms => objSorted ms && wfMembers ms
def wfItems : List JSONValue → Bool
  | [] => true
  | v :: tl => wfValue v && wfItems tl
def wfMembers : List (List Nat × JSONValue) → Bool
  | [] => true
  | (_, v) :: tl => wfValue v && wfMembers tl
end

/-! Parser fuel consumed by a value: one unit per value plus one per
container element, a bound on the recursion depth of the decoder. -/

mutual
def sizeValue : JSONValue → Nat
  | .null => 1
  | .bool _ => 1
  | .num _ => 1
  | .str _ => 1
  | .arr items => 1 + sizeItems items
  | .obj ms => 1 + sizeMembers ms
def sizeItems : List JSONValue → Nat
  | [] => 0
  | v :: tl => 1 + sizeValue v + sizeItems tl
def sizeMembers : List (List Nat × JSONValue) → Nat
  | [] => 0
  | (_, v) :: tl => 1 + sizeValue v + sizeMembers tl
end

/-! #### Lexical helpers (byte/code-point level) -/

/-- The scanner's whitespace set: space, tab, newline, carriage return. -/
def isSpaceByte (c : Nat) : Bool := c = 32 || c = 9 || c = 10 || c = 13

/-- Drop leading whitespace, as the decoder's scanner does between tokens. -/
def skipWS : List Nat → List Nat
  | [] => []
  | c :: rest => if isSpaceByte c then skipWS rest else c :: rest

def isDigitByte (c : Nat) : Bool := 48 ≤ c && c ≤ 57

/-- Value of one hex digit (`0-9`, `a-f`, `A-F`), as the decoder's
`\uXXXX` reader accepts. -/
def hexByteVal (c : Nat) : Option Nat :=
  if 48 ≤ c && c ≤ 57 then some (c - 48)
  else if 97 ≤ c && c ≤ 102 then some (c - 87)
  else if 65 ≤ c && c ≤ 70 then some (c - 55)
  else none

/-- The encoder's lowercase hex digit. -/
def hexDigitByte (n : Nat) : Nat := if n < 10 then 48 + n else 87 + n

/-- The escape `\uXXXX` for `c < 0x10000`, as the encoder emits for control characters,
for `<`, `>`, `&` (HTML escaping is on in `json.Marshal`), and for
U+2028/U+2029. -/
def escapeU (c : Nat) : List Nat :=
  [92, 117, hexDigitByte (c / 4096 % 16), hexDigitByte (c / 256 % 16),
   hexDigitByte (c / 16 % 16), hexDigitByte (c % 16)]

/-- One string character, escaped the way Go's JSON encoder (with its default
HTML escaping) writes it: `"` and `\` get a backslash, newline, carriage
return and tab their two-byte escapes, all other control characters plus
`<`, `>`, `&`, U+2028, U+2029 a `\uXXXX`, everything else is literal. -/
def escapeChar (c : Nat) : List Nat :=
  if c = 34 then [92, 34]
  else if c = 92 then [92, 92]
  else if c = 10 then [92, 110]
  else if c = 13 then [92, 114]
  else if c = 9 then [92, 116]
  else if c < 32 then escapeU c
  else if c = 60 || c = 62 || c = 38 then escapeU c
  else if c = 8232 || c = 8233 then escapeU c
  else [c]

/-- The escaped body of a string literal. -/
def escapeString (s : List Nat) : List Nat := (s.map escapeChar).flatten

/-- A full string literal: quote, escaped body, quote. -/
def quoteString (s : List Nat) : List Nat := 34 :: (escapeString s ++ [34])

/-- Decode a string literal body after its opening quote: plain characters,
two-byte escapes, and `\uXXXX`.  Control bytes must be escaped (the scanner
rejects literal bytes below 0x20). -/
def parseStringBody : List Nat → Option (List Nat × List Nat)
  | [] => none
  | c :: rest =>
    if c = 34 then some ([], rest)
    else if c = 92 then
      match rest with
      | [] => none
      | e :: rest2 =>
        if e = 34 || e = 92 || e = 47 then
          (fun p => (e :: p.1, p.2)) <$> parseStringBody rest2
        else if e = 98 then (fun p => (8 :: p.1, p.2)) <$> parseStringBody rest2
        else if e = 102 then (fun p => (12 :: p.1, p.2)) <$> parseStringBody rest2
        else if e = 110 then (fun p => (10 :: p.1, p.2)) <$> parseStringBody rest2
        else if e = 114 then (fun p => (13 :: p.1, p.2)) <$> parseStringBody rest2
        else if e = 116 then (fun p => (9 :: p.1, p.2)) <$> parseStringBody rest2
        else if e = 117 then
          match rest2 with
          | h1 :: h2 :: h3 :: h4 :: rest3 =>
            match hexByteVal h1, hexByteVal h2, hexByteVal h3, hexByteVal h4 with
            | some d1, some d2, some d3, some d4 =>
              (fun p => ((((d1 * 16 + d2) * 16 + d3) * 16 + d4) :: p.1, p.2)) <$>
                parseStringBody rest3
            | _, _, _, _ => none
          | _ => none
        else none
    else if c < 32 then none
    else (fun p => (c :: p.1, p.2)) <$> parseStringBody rest

/-! #### Integer literals -/

/-- Decimal digit bytes of `n`, most significant first. -/
def natToDigits (n : Nat) : List Nat :=
  if n = 0 then [48] else (Nat.digits 10 n).reverse.map (fun d => d + 48)

/-- The encoder's rendering of an integral number value: optional minus sign,
then decimal digits. -/
def serInt (i : Int) : List Nat :=
  if i < 0 then 45 :: natToDigits i.natAbs else natToDigits i.toNat

/-- Accumulate a run of decimal digit bytes. -/
def parseDigitsLoop (acc : Nat) : List Nat → Nat × List Nat
  | [] => (acc, [])
  | c :: rest =>
    if isDigitByte c then parseDigitsLoop (acc * 10 + (c - 48)) rest
    else (acc, c :: rest)

/-- Decode an unsigned integer literal, enforcing the scanner's
no-leading-zero rule (`0` must stand alone). -/
def parseNatLit : List Nat → Option (Nat × List Nat)
  | [] => none
  | c :: rest =>
    if c = 48 then
      match rest with
      | c2 :: _ => if isDigitByte c2 then none else some (0, rest)
      | [] => some (0, [])
    else if isDigitByte c then some (parseDigitsLoop (c - 48) rest)
    else none

/-- Decode an integer literal with optional minus sign. -/
def parseIntLit : List Nat → Option (Int × List Nat)
  | [] => none
  | c :: rest =>
    if c = 45 then (fun p => (-(p.1 : Int), p.2)) <$> parseNatLit rest
    else (fun p => ((p.1 : Int), p.2)) <$> parseNatLit (c :: rest)

/-- The next byte (if any) cannot extend a digit run. -/
def noDigitAhead : List Nat → Bool
  | [] => true
  | c :: _ => !isDigitByte c

/-! #### The decoder

Structured like Go's scanner-driven decode into an empty interface: a value
is `null` / `true` / `false`, a string, an object, an array, or a number;
the parser expects its input pre-stripped of leading whitespace and strips
whitespace between tokens itself.  The Go decoder recurses on the input;
here a `fuel` counter makes the recursion structural (every recursive call
also consumes input, so the fuel chosen by `jsonUnmarshal` — input length
plus one — never runs out before the input does). -/

mutual
def parseValue : Nat → List Nat → Option (JSONValue × List Nat)
  | 0, _ => none
  | _ + 1, [] => none
  | fuel + 1, c :: rest =>
    if c = 110 then
      match rest with
      | 117 :: 108 :: 108 :: r => some (.null, r)
      | _ => none
    else if c = 116 then
      match rest with
      | 114 :: 117 :: 101 :: r => some (.bool true, r)
      | _ => none
    else if c = 102 then
      match rest with
      | 97 :: 108 :: 115 :: 101 :: r => some (.bool false, r)
      | _ => none
    else if c = 34 then
      (fun p => (.str p.1, p.2)) <$> parseStringBody rest
    else if c = 91 then
      match skipWS rest with
      | [] => none
      | c2 :: r =>
        if c2 = 93 then some (.arr [], r)
        else (fun p => (.arr p.1, p.2)) <$> parseItems fuel (c2 :: r)
    else if c = 123 then
      match skipWS rest with
      | [] => none
      | c2 :: r =>
        if c2 = 125 then some (.obj [], r)
        else (fun p => (.obj p.1, p.2)) <$> parseMembers fuel [] (c2 :: r)
    else
      (fun p => (.num p.1, p.2)) <$> parseIntLit (c :: rest)
def parseItems : Nat → List Nat → Option (List JSONValue × List Nat)
  | 0, _ => none
  | fuel + 1, s =>
    match parseValue fuel s with
    | none => none
    | some (v, r) =>
      match skipWS r with
      | [] => none
      | c2 :: r2 =>
        if c2 = 44 then (fun p => (v :: p.1, p.2)) <$> parseItems fuel (skipWS r2)
        else if c2 = 93 then some ([v], r2)
        else none
def parseMembers : Nat → List (List Nat × JSONValue) → List Nat →
    Option (List (List Nat × JSONValue) × List Nat)
  | 0, _, _ => none
  | fuel + 1, acc, s =>
    match s with
    | [] => none
    | c0 :: s1 =>
      if c0 = 34 then
        match parseStringBody s1 with
        | none => none
        | some (k, s2) =>
          match skipWS s2 with
          | [] => none
          | c1 :: s3 =>
            if c1 = 58 then
              match parseValue fuel (skipWS s3) with
              | none => none
              | some (v, s4) =>
                match skipWS s4 with
                | [] => none
                | c2 :: s5 =>
                  if c2 = 44 then parseMembers fuel (insertKV k v acc) (skipWS s5)
                  else if c2 = 125 then some (insertKV k v acc, s5)
                  else none
            else none
      else none
end

/-- Go `json.Unmarshal(data, &v)` with `v` an empty interface: strip leading
whitespace, decode one value, and require only whitespace to follow
(anything else is `invalid character after top-level value`). -/
def jsonUnmarshal (data : List Nat) : Option JSONValue :=
  match parseValue (data.length + 1) (skipWS data) with
  | some (v, rest) => if skipWS rest = [] then some v else none
  | none => none

/-! #### The encoder (`json.MarshalIndent(v, "", "  ")`) -/

/-- The indentation in front of a line at nesting depth `ind`: `ind` copies
of the two-space indent string. -/
def padding (ind : Nat) : List Nat := List.replicate (2 * ind) 32

mutual
def serValue : JSONValue → Nat → List Nat
  | .null, _ => [110, 117, 108, 108]
  | .bool true, _ => [116, 114, 117, 101]
  | .bool false, _ => [102, 97, 108, 115, 101]
  | .num n, _ => serInt n
  | .str s, _ => quoteString s
  | .arr [], _ => [91, 93]
  | .arr (v :: tl), ind =>
    91 :: 10 :: (serItems (v :: tl) (ind + 1) ++ 10 :: (padding ind ++ [93]))
  | .obj [], _ => [123, 125]
  | .obj (m :: tl), ind =>
    123 :: 10 :: (serMembers (m :: tl) (ind + 1) ++ 10 :: (padding ind ++ [125]))
def serItems : List JSONValue → Nat → List Nat
  | [], _ => []
  | [v], ind => padding ind ++ serValue v ind
  | v :: v2 :: tl, ind =>
    padding ind ++ (serValue v ind ++ 44 :: 10 :: serItems (v2 :: tl) ind)
def serMembers : List (List Nat × JSONValue) → Nat → List Nat
  | [], _ => []
  | [(k, v)], ind => padding ind ++ (quoteString k ++ 58 :: 32 :: serValue v ind)
  | (k, v) :: m2 :: tl, ind =>
    padding ind ++
      (quoteString k ++ 58 :: 32 :: (serValue v ind ++ 44 :: 10 :: serMembers (m2 :: tl) ind))
end

/-- Go `json.MarshalIndent(v, "", "  ")`.  Its Go error branch fires only for
values the encoder cannot represent (channels, cycles, ...), none of which
the generic decode can produce, so the model is total. -/
def jsonMarshalIndent (v : JSONValue) : List Nat := serValue v 0

/-- The function `formatJSON` (src/main.go lines 80-92): decode generically, then
re-encode with two-space indentation.  (The Go code wraps the decoder's
message in `failed to parse JSON: ...`; the message text is not
claim-relevant.) -/
def formatJSON (data : List Nat) : Except String (List Nat) :=
  match jsonUnmarshal data with
  | none => .error "failed to parse JSON"
  | some v => .ok (jsonMarshalIndent v)

/-! ### The XML formatter (`formatXML`, src/main.go lines 95-107)

`formatXML` runs `xml.Unmarshal(data, &parsedXML)` with `parsedXML` a nil
empty interface.  `encoding/xml`'s `Decoder.DecodeElement` first reads
tokens until the first start element (discarding character data, comments,
processing instructions and directives; a tokenizer error or end of input
before a start element is returned as the unmarshal error), then dispatches
on the destination kind.  A nil empty interface hits
`case reflect.Interface: return d.Skip()` — the decoder skips over the
first element, checking only that its content tokenizes with properly
matched end tags, and leaves the interface nil.  So the decode SUCCEEDS on
any input whose first element is well formed, producing the nil interface;
it fails exactly when the token scan fails.  `xml.MarshalIndent(nil, "",
"  ")` then reflects an invalid value; `marshalValue` returns nil without
writing anything, so the re-serialization is empty and `formatXML` returns
the single newline byte appended by the source.

The token scan is modeled at the byte level: tag names are maximal runs of
bytes that are neither whitespace nor XML structural bytes; attributes
inside a start tag are skipped up to the closing `>`, honoring single and
double quotes so a quoted `>` does not end the tag, with `/>` marking a
self-closing element; end tags must name the innermost open element.
Comments, processing instructions and directives (`<!`/`<?`) are skipped
to the next `>` and character data is passed over blindly — the entity and
comment grammar of the tokenizer is not modeled beyond this. -/

def xmlIsNameByte (c : Nat) : Bool :=
  !(isSpaceByte c) && !(c == 60) && !(c == 62) && !(c == 47) && !(c == 61) &&
    !(c == 33) && !(c == 63) && !(c == 34) && !(c == 39)

/-- Drops bytes up to and including the first occurrence of `q`; `none` if
`q` never occurs. -/
def dropThroughByte (q : Nat) : List Nat → Option (List Nat)
  | [] => none
  | c :: rest => if c = q then some rest else dropThroughByte q rest

/-- Reads a tag name: the maximal nonempty prefix of name bytes. -/
def xmlReadName (s : List Nat) : Option (List Nat × List Nat) :=
  match s with
  | [] => none
  | c :: _ =>
    if xmlIsNameByte c then some (s.takeWhile xmlIsNameByte, s.dropWhile xmlIsNameByte)
    else none

/-- Skips the attribute region of a start tag, up to its closing `>`.
Returns whether the tag was self-closing (`/>`), and the input after the
`>`.  Quoted attribute values are skipped as a unit.  The fuel is spent one
unit per inspected byte, so `length + 1` always suffices. -/
def xmlFinishTag : Nat → List Nat → Option (Bool × List Nat)
  | 0, _ => none
  | _ + 1, [] => none
  | f + 1, c :: rest =>
    if c = 62 then some (false, rest)
    else if c = 47 then
      match rest with
      | 62 :: r2 => some (true, r2)
      | _ => none
    else if c = 34 || c = 39 then
      match dropThroughByte c rest with
      | some r2 => xmlFinishTag f r2
      | none => none
    else xmlFinishTag f rest

mutual

/-- Token scan of `Decoder.DecodeElement` hunting for the first start
element: character data before it is discarded, `<!`/`<?` constructs are
skipped, end of input yields the `EOF` error, a stray end tag is a syntax
error.  On finding a start tag the scan proceeds as `d.Skip()` does:
a self-closing first element is complete at once, otherwise the content is
scanned with the element name pushed on the open-element stack. -/
def xmlFindFirstElement : Nat → List Nat → Except String Unit
  | 0, _ => .error "internal: fuel exhausted"
  | _ + 1, [] => .error "EOF"
  | f + 1, c :: rest =>
    if c = 60 then
      match rest with
      | [] => .error "unexpected EOF"
      | c2 :: rest2 =>
        if c2 = 47 then .error "unexpected end element"
        else if c2 = 33 || c2 = 63 then
          match dropThroughByte 62 (c2 :: rest2) with
          | some r2 => xmlFindFirstElement f r2
          | none => .error "unexpected EOF"
        else
          match xmlReadName (c2 :: rest2) with
          | none => .error "expected element name after <"
          | some (name, r2) =>
            match xmlFinishTag f r2 with
            | none => .error "unexpected EOF"
            | some (true, _) => .ok ()
            | some (false, r3) => xmlScanContent f [name] r3
    else xmlFindFirstElement f rest

/-- Token scan of `d.Skip()` inside the first element: nested start tags
push onto the stack, each end tag must match the innermost open element
(the tokenizer rejects mismatched tags), and the scan completes when the
stack empties.  End of input with elements still open is an error. -/
def xmlScanContent : Nat → List (List Nat) → List Nat → Except String Unit
  | 0, _, _ => .error "internal: fuel exhausted"
  | _ + 1, _, [] => .error "unexpected EOF"
  | f + 1, stack, c :: rest =>
    if c = 60 then
      match rest with
      | [] => .error "unexpected EOF"
      | c2 :: rest2 =>
        if c2 = 47 then
          match xmlReadName rest2 with
          | none => .error "expected element name after </"
          | some (name, r2) =>
            match stack with
            | [] => .error "unexpected end element"
            | top :: stack2 =>
              if name = top then
                match r2.dropWhile isSpaceByte with
                | 62 :: r3 =>
                  if stack2.isEmpty then .ok () else xmlScanContent f stack2 r3
                | _ => .error "invalid characters between end tag and >"
              else .error "mismatched end element"
        else if c2 = 33 || c2 = 63 then
          match dropThroughByte 62 (c2 :: rest2) with
          | some r2 => xmlScanContent f stack r2
          | none => .error "unexpected EOF"
        else
          match xmlReadName (c2 :: rest2) with
          | none => .error "expected element name after <"
          | some (name, r2) =>
            match xmlFinishTag f r2 with
            | none => .error "unexpected EOF"
            | some (true, r3) => xmlScanContent f stack r3
            | some (false, r3) => xmlScanContent f (name :: stack) r3
    else xmlScanContent f stack rest

end

/-- The value `xml.Unmarshal` leaves in a nil empty-interface destination:
`case reflect.Interface` only skips the element, never writing the
interface, so the one possible result is the still-nil interface. -/
inductive XMLGenericValue : Type
  | nilInterface

/-- Go `xml.Unmarshal(data, &parsedXML)` with `parsedXML` a nil empty
interface: succeeds, leaving the interface nil, exactly when the token scan
finds and skips a well-formed first element; otherwise returns the scan
error.  Fuel `length + 1` suffices since every recursive step consumes at
least one input byte. -/
def xmlUnmarshalInterface (data : List Nat) : Except String XMLGenericValue :=
  match xmlFindFirstElement (data.length + 1) data with
  | .ok _ => .ok .nilInterface
  | .error e => .error e

/-- Go `xml.MarshalIndent(v, "", "  ")` on the decode result, which is the
nil interface: `marshalValue` sees an invalid `reflect.Value` and returns
nil having written nothing, so the output is empty and there is no error. -/
def xmlMarshalIndent (v : XMLGenericValue) : Except String (List Nat) :=
  .ok []

/-- The shape of `formatXML` as written: decode, re-encode with two-space
indentation, append the trailing newline byte.  Parameterized over the two
library calls so the success path is stated once, for any decoder. -/
def formatXMLPipeline {V : Type} (decode : List Nat → Except String V)
    (encode : V → Except String (List Nat)) (data : List Nat) :
    Except String (List Nat) :=
  match decode data with
  | .error e => .error ("failed to parse XML: " ++ e)
  | .ok v =>
    match encode v with
    | .error e => .error ("failed to format XML: " ++ e)
    | .ok out => .ok (out ++ [10])

/-- The function `formatXML` (src/main.go lines 95-107). -/
def formatXML (data : List Nat) : Except String (List Nat) :=
  formatXMLPipeline xmlUnmarshalInterface xmlMarshalIndent data

/-! ### The HTML formatter (`formatHTML`, src/main.go lines 110-122)

`html.Parse` implements the WHATWG tree-construction algorithm and succeeds
on every in-memory input (its only error source is the reader, and a
`bytes.Reader` never fails); `html.Render` then serializes the repaired
tree.  No claim concerns the tree algorithm itself, so the rendered document
is abstracted; only the totality of the pipeline is load-bearing. -/

def htmlRenderedDocument (data : List Nat) : List Nat := data

def formatHTML (data : List Nat) : Except String (List Nat) :=
  .ok (htmlRenderedDocument data)

/-! ### The request handler (`formatHandler`, src/main.go lines 125-186) -/

/-- The function `formatHandler`, as a function of the `type` query parameter
(`none` when absent; `r.URL.Query().Get` returns the empty string then)
and of the result of reading `r.Body` (`none` models a read error).
In the deployed chain the body is the middleware's buffer and the read
always succeeds, but the branch is part of the handler as written. -/
def formatHandler (typeParam : Option String) (bodyRead : Option (List Nat)) :
    HandlerResult :=
  let contentType := toLowerAscii (typeParam.getD "")
  if contentType = "" then
    { status := 400, message := missingTypeMessage, errorInc := true, invoked := none }
  else
    match bodyRead with
    | none =>
      { status := 400, message := bodyReadFailedMessage, errorInc := true, invoked := none }
    | some body =>
      if contentType = "json" then respondFormatted .json (formatJSON body)
      else if contentType = "xml" then respondFormatted .xml (formatXML body)
      else if contentType = "html" then respondFormatted .html (formatHTML body)
      else
        { status := 400, message := invalidTypeMessage, errorInc := true, invoked := none }

/-! ### The metrics middleware and the deployed `/format` chain
(`FormatMetricsMiddleware`, src/main.go lines 49-77; wiring at line 223) -/

/-- One `POST /format` call as the middleware sees it: the `type` query
parameter, the outcome of reading the body stream (`none`: the read fails),
and the elapsed time the middleware will measure for it. -/
structure ServiceRequest where
  typeParam : Option String
  body : Option (List Nat)
  duration : Nat

/-- The response the client receives from the wrapped chain.  When the
middleware's own body read fails it answers `400` itself and never calls
the handler; otherwise it hands the handler the buffered body. -/
def serviceResponse (r : ServiceRequest) : HandlerResult :=
  match r.body with
  | none =>
    { status := 400, message := bodyReadFailedMessage, errorInc := false, invoked := none }
  | some b => formatHandler r.typeParam (some b)

/-- The critical sections one call executes against the shared accumulator,
in program order: nothing at all when the middleware's body read fails
(its early `return` precedes every metrics update); otherwise the handler's
possible `ErrorCount++` happens inside `next.ServeHTTP`, and the
middleware's `recordRequest` block runs after the handler returns. -/
def serviceOps (r : ServiceRequest) : List MetricsOp :=
  match r.body with
  | none => []
  | some b =>
    (if (formatHandler r.typeParam (some b)).errorInc then [.incError] else []) ++
      [.recordRequest r.duration b.length]

/-- Metrics state after a sequence of calls completes one after the other. -/
def runRequests (m : FormatAPIMetrics) (rs : List ServiceRequest) : FormatAPIMetrics :=
  rs.foldl (fun acc r => applyOps acc (serviceOps r)) m

/-! ### Startup configuration (`main`, src/main.go lines 209-233) -/

/-- The startup line `port := os.Getenv("PORT"); if port == "" \x7b port = "8030" \x7d`.
`os.Getenv` yields the empty string for an unset variable, modeled by
`Option.getD ""`. -/
def resolvePort (envPORT : Option String) : String :=
  let port := envPORT.getD ""
  if port = "" then "8030" else port

/-- The address handed to `http.ListenAndServe`. -/
def listenAddr (envPORT : Option String) : String := ":" ++ resolvePort envPORT

/-! ### Derived observations used by the statements below -/

/-- Number of `ErrorCount++` critical sections in a trace. -/
def countIncError (ops : List MetricsOp) : Nat :=
  ops.countP fun o => match o with | .incError => true | _ => false

/-- Number of middleware `recordRequest` critical sections in a trace. -/
def countRecord (ops : List MetricsOp) : Nat :=
  ops.countP fun o => match o with | .recordRequest _ _ => true | _ => false

/-- The body sizes the middleware observes: one entry per call whose body
read succeeded (a failed read leaves no measurable size). -/
def observedSizes (rs : List ServiceRequest) : List Nat :=
  rs.filterMap fun r => r.body.map List.length

/-- The calls whose body the middleware managed to read. -/
def readOkCount (rs : List ServiceRequest) : Nat :=
  (rs.filter fun r => r.body.isSome).length

/-! ## Theorems

First the bookkeeping lemmas about the metrics accumulator, then the claims
about the service, and finally the round-trip development for the
integer-idealized JSON model. -/

theorem applyOps_append (m : FormatAPIMetrics) (xs ys : List MetricsOp) :
    applyOps m (xs ++ ys) = applyOps (applyOps m xs) ys := by
  simp [applyOps]

theorem applyOps_ErrorCount (ops : List MetricsOp) :
    ∀ m : FormatAPIMetrics,
      (applyOps m ops).ErrorCount = m.ErrorCount + countIncError ops := by
  induction ops with
  | nil => intro m; simp [applyOps, countIncError]
  | cons o tl ih =>
    intro m
    have h := ih (applyOp m o)
    simp only [applyOps, List.foldl_cons] at h ⊢
    rw [h]
    cases o <;> simp [countIncError, List.countP_cons, applyOp] <;> omega

theorem applyOps_RequestCount (ops : List MetricsOp) :
    ∀ m : FormatAPIMetrics,
      (applyOps m ops).RequestCount = m.RequestCount + countRecord ops := by
  induction ops with
  | nil => intro m; simp [applyOps, countRecord]
  | cons o tl ih =>
    intro m
    have h := ih (applyOp m o)
    simp only [applyOps, List.foldl_cons] at h ⊢
    rw [h]
    cases o <;> simp [countRecord, List.countP_cons, applyOp] <;> omega

theorem applyOps_MaxPayloadSize (ops : List MetricsOp) :
    ∀ m : FormatAPIMetrics, m.MaxPayloadSize ≤ (applyOps m ops).MaxPayloadSize := by
  induction ops with
  | nil => intro m; simp [applyOps]
  | cons o tl ih =>
    intro m
    simp only [applyOps, List.foldl_cons]
    refine le_trans ?_ (ih (applyOp m o))
    cases o with
    | incError => simp [applyOp]
    | recordRequest d p =>
      simp only [applyOp]
      split <;> omega

theorem countRecord_serviceOps (r : ServiceRequest) :
    countRecord (serviceOps r) = if r.body.isSome then 1 else 0 := by
  obtain ⟨tp, body, d⟩ := r
  cases body with
  | none => simp [serviceOps, countRecord]
  | some b =>
    simp only [serviceOps, countRecord, List.countP_append, Option.isSome]
    split <;> simp [List.countP_cons, List.countP_nil]

theorem countIncError_serviceOps_le (r : ServiceRequest) :
    countIncError (serviceOps r) ≤ countRecord (serviceOps r) := by
  obtain ⟨tp, body, d⟩ := r
  cases body with
  | none => simp [serviceOps, countIncError, countRecord]
  | some b =>
    simp only [serviceOps, countIncError, countRecord, List.countP_append]
    split <;> simp [List.countP_cons, List.countP_nil]

theorem runRequests_RequestCount (rs : List ServiceRequest) :
    ∀ m : FormatAPIMetrics,
      (runRequests m rs).RequestCount = m.RequestCount + readOkCount rs := by
  induction rs with
  | nil => intro m; simp [runRequests, readOkCount]
  | cons r tl ih =>
    intro m
    have h := ih (applyOps m (serviceOps r))
    simp only [runRequests, List.foldl_cons] at h ⊢
    rw [h, applyOps_RequestCount, countRecord_serviceOps]
    simp only [readOkCount, List.filter_cons]
    split <;> simp <;> omega

theorem runRequests_MaxPayloadSize (rs : List ServiceRequest) :
    ∀ m : FormatAPIMetrics,
      (runRequests m rs).MaxPayloadSize
        = (observedSizes rs).foldl max m.MaxPayloadSize := by
  induction rs with
  | nil => intro m; simp [runRequests, observedSizes]
  | cons r tl ih =>
    intro m
    have h := ih (applyOps m (serviceOps r))
    simp only [runRequests, List.foldl_cons] at h ⊢
    rw [h]
    obtain ⟨tp, body, d⟩ := r
    cases body with
    | none => simp [serviceOps, observedSizes, applyOps]
    | some b =>
      have hmax : (applyOps m (serviceOps ⟨tp, some b, d⟩)).MaxPayloadSize
          = max m.MaxPayloadSize b.length := by
        simp only [serviceOps, applyOps, List.foldl_append]
        split <;>
          · simp only [List.foldl_cons, List.foldl_nil, applyOp]
            split <;> omega
      rw [hmax]
      simp [observedSizes, List.filterMap_cons]

theorem errorInc_single_call (tp : Option String) (b : List Nat) (d : Nat) :
    (runRequests initialMetrics [⟨tp, some b, d⟩]).ErrorCount
      = if (formatHandler tp (some b)).errorInc then 1 else 0 := by
  simp only [runRequests, List.foldl_cons, List.foldl_nil]
  rw [applyOps_ErrorCount]
  simp only [serviceOps, countIncError, List.countP_append, initialMetrics]
  split <;> simp [List.countP_cons, List.countP_nil]

/-- Claim C2 (amended), proved: the timing middleware counts exactly the
calls whose body it managed to read — one `RequestCount++` per such call,
successful or not — while a call whose body read fails is answered `400`
before any metrics update and is not counted. -/
theorem request_count_counts_buffered_calls (rs : List ServiceRequest) :
    (runRequests initialMetrics rs).RequestCount = readOkCount rs := by
  rw [runRequests_RequestCount]
  simp [initialMetrics]

/-- Claim C2, counterexample to the statement as written: a single failed
call (body read fails, response `400`) leaves the request count at `0`,
not at `N + M = 0 + 1 = 1`. -/
theorem request_count_counterexample :
    (serviceResponse ⟨some "json", none, 7⟩).status = 400 ∧
    (serviceResponse ⟨some "json", none, 7⟩).status ≠ 200 ∧
    (runRequests initialMetrics [⟨some "json", none, 7⟩]).RequestCount = 0 := by
  refine ⟨rfl, by decide, rfl⟩

/-- Claim C3 (amended), proved: at every quiescent point — any state
reached by a complete set of per-call critical-section traces, interleaved
in any order — the error count is at most the request count.  Every
`ErrorCount++` a call performs is followed, in its own trace, by that
call's `RecordRequest`, so completed traces always balance. -/
theorem error_count_le_request_count_quiescent
    (rs : List ServiceRequest) (ops : List MetricsOp)
    (h : ops.Perm (rs.map serviceOps).flatten) :
    (applyOps initialMetrics ops).ErrorCount
      ≤ (applyOps initialMetrics ops).RequestCount := by
  rw [applyOps_ErrorCount, applyOps_RequestCount]
  simp only [initialMetrics, Nat.zero_add]
  have hinc : countIncError ops = countIncError (rs.map serviceOps).flatten :=
    h.countP_eq _
  have hrec : countRecord ops = countRecord (rs.map serviceOps).flatten :=
    h.countP_eq _
  rw [hinc, hrec]
  clear hinc hrec h ops
  induction rs with
  | nil => simp [countIncError, countRecord]
  | cons r tl ih =>
    simp only [List.map_cons, List.flatten_cons, countIncError, countRecord,
      List.countP_append] at ih ⊢
    have := countIncError_serviceOps_le r
    simp only [countIncError, countRecord] at this
    omega

/-- Witness for C3 (amended): the quiescent bound applied to the one-call
interleaving of a missing-`type` request. -/
theorem error_count_le_request_count_quiescent_witness :
    (applyOps initialMetrics
        (([⟨none, some [], 5⟩] : List ServiceRequest).map serviceOps).flatten).ErrorCount
      ≤ (applyOps initialMetrics
        (([⟨none, some [], 5⟩] : List ServiceRequest).map serviceOps).flatten).RequestCount :=
  error_count_le_request_count_quiescent [⟨none, some [], 5⟩] _ (List.Perm.refl _)

/-- Claim C3, counterexample to the statement as written: a missing-`type`
call's trace is `ErrorCount++` (in the handler) followed by
`RecordRequest` (in the middleware, after the handler returns); in the
state between the two — reachable by a snapshot at that point — the error
count exceeds the request count. -/
theorem error_count_exceeds_request_count_midway :
    serviceOps ⟨none, some [], 5⟩ = [.incError, .recordRequest 5 0] ∧
    (serviceOps ⟨none, some [], 5⟩).take 1 = [.incError] ∧
    (applyOps initialMetrics [.incError]).RequestCount
      < (applyOps initialMetrics [.incError]).ErrorCount := by
  refine ⟨rfl, rfl, by decide⟩

/-- Claim C4: evaluation at the failing input.  A `POST /format` call whose
body cannot be read is answered `400` by the metrics middleware before any
metrics update, so the error count stays `0` — although the handler's own
(unreachable) read-failure branch would have counted it, as the last
conjunct shows. -/
theorem body_read_failure_not_counted :
    (serviceResponse ⟨some "json", none, 3⟩).status = 400 ∧
    (serviceResponse ⟨some "json", none, 3⟩).message = bodyReadFailedMessage ∧
    (runRequests initialMetrics [⟨some "json", none, 3⟩]).ErrorCount = 0 ∧
    (formatHandler (some "json") none).errorInc = true := by
  refine ⟨rfl, rfl, rfl, by decide⟩

/-- Claim C5 (amended), proved: for every call whose body the middleware
could read, a missing `type` parameter draws `400` with the descriptive
message, an `ErrorCount` increment and no formatter invocation; and any
`type` whose lowercasing is none of `json`, `xml`, `html` draws `400`,
an `ErrorCount` increment and no formatter invocation. -/
theorem type_param_validation (tp : Option String) (b : List Nat) (d : Nat) :
    (tp = none →
      (serviceResponse ⟨tp, some b, d⟩).status = 400 ∧
      (serviceResponse ⟨tp, some b, d⟩).message = missingTypeMessage ∧
      (serviceResponse ⟨tp, some b, d⟩).invoked = none ∧
      (runRequests initialMetrics [⟨tp, some b, d⟩]).ErrorCount = 1) ∧
    (∀ s : String, tp = some s →
      toLowerAscii s ≠ "json" → toLowerAscii s ≠ "xml" → toLowerAscii s ≠ "html" →
      (serviceResponse ⟨tp, some b, d⟩).status = 400 ∧
      (serviceResponse ⟨tp, some b, d⟩).invoked = none ∧
      (runRequests initialMetrics [⟨tp, some b, d⟩]).ErrorCount = 1) := by
  constructor
  · rintro rfl
    refine ⟨rfl, rfl, rfl, ?_⟩
    rw [errorInc_single_call]
    rfl
  · rintro s rfl hj hx hh
    rw [errorInc_single_call]
    by_cases h0 : toLowerAscii s = ""
    · simp [serviceResponse, formatHandler, h0]
    · simp [serviceResponse, formatHandler, h0, hj, hx, hh]

/-- Witness for C5 (amended): both branches at concrete calls — absent
`type`, and `type=yaml`. -/
theorem type_param_validation_witness :
    ((serviceResponse ⟨none, some [7], 2⟩).status = 400 ∧
      (serviceResponse ⟨none, some [7], 2⟩).message = missingTypeMessage ∧
      (serviceResponse ⟨none, some [7], 2⟩).invoked = none ∧
      (runRequests initialMetrics [⟨none, some [7], 2⟩]).ErrorCount = 1) ∧
    ((serviceResponse ⟨some "yaml", some [7], 2⟩).status = 400 ∧
      (serviceResponse ⟨some "yaml", some [7], 2⟩).invoked = none ∧
      (runRequests initialMetrics [⟨some "yaml", some [7], 2⟩]).ErrorCount = 1) :=
  ⟨(type_param_validation none [7] 2).1 rfl,
   (type_param_validation (some "yaml") [7] 2).2 "yaml" rfl
     (by decide) (by decide) (by decide)⟩

/-- Claim C5, counterexample to the statement as written: a request with
absent `type` whose body read also fails is answered `400` by the
middleware, but no `ErrorCount` increment happens. -/
theorem type_param_validation_counterexample :
    (serviceResponse ⟨none, none, 0⟩).status = 400 ∧
    (runRequests initialMetrics [⟨none, none, 0⟩]).ErrorCount = 0 := by
  refine ⟨rfl, rfl⟩

/-- Claim C6: the reported average is `0` whenever the request count is
`0` (the division is guarded), otherwise it is (the millisecond value of)
the total duration divided by the request count; and the snapshot of the
initial state reports all zeroes. -/
theorem metrics_snapshot_average :
    (∀ m : FormatAPIMetrics, m.RequestCount = 0 →
      (MetricsHandler m).average_duration_ms = 0) ∧
    (∀ m : FormatAPIMetrics, 0 < m.RequestCount →
      (MetricsHandler m).average_duration_ms
        = durationMilliseconds (m.TotalDuration / m.RequestCount)) ∧
    MetricsHandler initialMetrics =
      { request_count := 0, error_count := 0, total_duration_ms := 0,
        average_duration_ms := 0, max_payload_size_bytes := 0 } := by
  refine ⟨fun m h0 => ?_, fun m hpos => ?_, rfl⟩
  · simp [MetricsHandler, h0, durationMilliseconds]
  · simp [MetricsHandler, hpos]

/-- Witness for C6: both guarded branches at concrete accumulator states. -/
theorem metrics_snapshot_average_witness :
    (MetricsHandler ⟨0, 3, 7, 9⟩).average_duration_ms = 0 ∧
    (MetricsHandler ⟨2, 0, 14000000, 5⟩).average_duration_ms
      = durationMilliseconds (14000000 / 2) :=
  ⟨metrics_snapshot_average.1 ⟨0, 3, 7, 9⟩ rfl,
   metrics_snapshot_average.2.1 ⟨2, 0, 14000000, 5⟩ (by decide)⟩

/-- Claim C7: the max-payload field never decreases across a
`recordRequest`, and after any sequence of completed calls it equals the
largest body size the middleware observed (each call whose body read
succeeded contributes its body length; a call whose read failed performs
no metrics update and observes no size). -/
theorem max_payload_size_tracks_largest :
    (∀ (m : FormatAPIMetrics) (d p : Nat),
      m.MaxPayloadSize ≤ (applyOp m (.recordRequest d p)).MaxPayloadSize) ∧
    (∀ rs : List ServiceRequest,
      (runRequests initialMetrics rs).MaxPayloadSize
        = (observedSizes rs).foldl max 0) := by
  constructor
  · intro m d p
    simp only [applyOp]
    split <;> omega
  · intro rs
    rw [runRequests_MaxPayloadSize]
    rfl

/-- Claim C10: the port comes from the `PORT` environment variable alone;
unset or empty selects `8030`, anything else is used verbatim. -/
theorem port_selection :
    resolvePort none = "8030" ∧ resolvePort (some "") = "8030" ∧
    listenAddr none = ":8030" ∧
    (∀ p : String, p ≠ "" →
      resolvePort (some p) = p ∧ listenAddr (some p) = ":" ++ p) := by
  refine ⟨rfl, rfl, rfl, fun p hp => ?_⟩
  constructor <;> simp [resolvePort, listenAddr, hp]

/-- Witness for C10: a non-empty `PORT` value is used verbatim. -/
theorem port_selection_witness :
    resolvePort (some "9090") = "9090" ∧ listenAddr (some "9090") = ":9090" :=
  port_selection.2.2.2 "9090" (by decide)

/-- Claim C8: whenever the XML formatting pipeline succeeds, its output is
the re-serialization produced by the indenting encoder followed by a
trailing newline byte, so the output always ends in a newline.  Stated for
the pipeline with any decode/encode pair and for `formatXML` itself; the
final conjunct exhibits a concrete success of `formatXML` (on the input
`<a/>` the decode skips the element into the nil interface, whose
re-serialization is empty, so the output is exactly the newline byte). -/
theorem formatXML_output_ends_newline :
    (∀ (V : Type) (decode : List Nat → Except String V)
        (encode : V → Except String (List Nat)) (data : List Nat),
      match formatXMLPipeline decode encode data with
      | .ok out =>
        (∃ v pre, decode data = .ok v ∧ encode v = .ok pre ∧ out = pre ++ [10]) ∧
          out.getLast? = some 10
      | .error _ => True) ∧
    (∀ data : List Nat,
      match formatXML data with
      | .ok out => out.getLast? = some 10
      | .error _ => True) ∧
    formatXML [60, 97, 47, 62] = Except.ok ([] ++ [10]) := by
  have hpipe : ∀ (V : Type) (decode : List Nat → Except String V)
      (encode : V → Except String (List Nat)) (data : List Nat),
      match formatXMLPipeline decode encode data with
      | .ok out =>
        (∃ v pre, decode data = .ok v ∧ encode v = .ok pre ∧ out = pre ++ [10]) ∧
          out.getLast? = some 10
      | .error _ => True := by
    intro V decode encode data
    unfold formatXMLPipeline
    match hdec : decode data with
    | .error e => simp
    | .ok v =>
      match henc : encode v with
      | .error e => simp [henc]
      | .ok pre =>
        simp only [henc]
        exact ⟨⟨v, pre, rfl, henc, rfl⟩, by simp⟩
  refine ⟨hpipe, fun data => ?_, rfl⟩
  have h := hpipe XMLGenericValue xmlUnmarshalInterface xmlMarshalIndent data
  rw [show formatXML data
        = formatXMLPipeline xmlUnmarshalInterface xmlMarshalIndent data from rfl]
  match hx : formatXMLPipeline xmlUnmarshalInterface xmlMarshalIndent data with
  | .ok out => rw [hx] at h; exact h.2
  | .error e => trivial

theorem skipWS_of_head_not_space {c : Nat} (l : List Nat)
    (h : isSpaceByte c = false) : skipWS (c :: l) = c :: l := by
  simp [skipWS, h]

theorem skipWS_space {c : Nat} (l : List Nat)
    (h : isSpaceByte c = true) : skipWS (c :: l) = skipWS l := by
  simp [skipWS, h]

theorem skipWS_replicate_space (k : Nat) :
    ∀ l : List Nat, skipWS (List.replicate k 32 ++ l) = skipWS l := by
  induction k with
  | zero => intro l; rfl
  | succ k ih =>
    intro l
    rw [List.replicate_succ, List.cons_append, skipWS_space _ (by decide), ih]

theorem skipWS_padding (ind : Nat) (l : List Nat) :
    skipWS (padding ind ++ l) = skipWS l :=
  skipWS_replicate_space (2 * ind) l

/-! #### String escapes -/

theorem hexByteVal_hexDigitByte {d : Nat} (h : d < 16) :
    hexByteVal (hexDigitByte d) = some d := by
  interval_cases d <;> decide

theorem parseStringBody_escapeChar (c : Nat) (rest : List Nat) :
    parseStringBody (escapeChar c ++ rest)
      = (fun p => (c :: p.1, p.2)) <$> parseStringBody rest := by
  have hval : ∀ x : Nat, x < 65536 →
      parseStringBody (escapeU x ++ rest)
        = (fun p => (x :: p.1, p.2)) <$> parseStringBody rest := by
    intro x hx
    have h1 : x / 4096 % 16 < 16 := Nat.mod_lt _ (by omega)
    have h2 : x / 256 % 16 < 16 := Nat.mod_lt _ (by omega)
    have h3 : x / 16 % 16 < 16 := Nat.mod_lt _ (by omega)
    have h4 : x % 16 < 16 := Nat.mod_lt _ (by omega)
    have hrec : (((x / 4096 % 16) * 16 + x / 256 % 16) * 16 + x / 16 % 16) * 16
        + x % 16 = x := by omega
    rw [show escapeU x ++ rest
        = 92 :: 117 :: hexDigitByte (x / 4096 % 16) :: hexDigitByte (x / 256 % 16)
          :: hexDigitByte (x / 16 % 16) :: hexDigitByte (x % 16) :: rest from by
      simp [escapeU], parseStringBody.eq_def]
    simp only [hexByteVal_hexDigitByte h1, hexByteVal_hexDigitByte h2,
      hexByteVal_hexDigitByte h3, hexByteVal_hexDigitByte h4]
    norm_num [hrec]
  by_cases h34 : c = 34
  · subst h34
    rw [show escapeChar 34 ++ rest = 92 :: 34 :: rest from rfl, parseStringBody.eq_def]
    simp
  by_cases h92 : c = 92
  · subst h92
    rw [show escapeChar 92 ++ rest = 92 :: 92 :: rest from rfl, parseStringBody.eq_def]
    simp
  by_cases h10 : c = 10
  · subst h10
    rw [show escapeChar 10 ++ rest = 92 :: 110 :: rest from rfl, parseStringBody.eq_def]
    simp
  by_cases h13 : c = 13
  · subst h13
    rw [show escapeChar 13 ++ rest = 92 :: 114 :: rest from rfl, parseStringBody.eq_def]
    simp
  by_cases h9 : c = 9
  · subst h9
    rw [show escapeChar 9 ++ rest = 92 :: 116 :: rest from rfl, parseStringBody.eq_def]
    simp
  by_cases hctl : c < 32
  · rw [show escapeChar c = escapeU c from by
      unfold escapeChar; simp [h34, h92, h10, h13, h9, hctl]]
    exact hval c (by omega)
  by_cases hhtml : c = 60 ∨ c = 62 ∨ c = 38
  · rw [show escapeChar c = escapeU c from by
      unfold escapeChar
      rcases hhtml with h | h | h <;> subst h <;> simp]
    rcases hhtml with h | h | h <;> exact hval c (by omega)
  by_cases hsep : c = 8232 ∨ c = 8233
  · rw [show escapeChar c = escapeU c from by
      unfold escapeChar
      rcases hsep with h | h <;> subst h <;> simp]
    rcases hsep with h | h <;> exact hval c (by omega)
  · have hb2 : (c = 60 ∨ c = 62 ∨ c = 38) = False := by simp [hhtml]
    have hb3 : (c = 8232 ∨ c = 8233) = False := by simp [hsep]
    rw [show escapeChar c = [c] from by
      unfold escapeChar
      simp only [if_neg h34, if_neg h92, if_neg h10, if_neg h13, if_neg h9,
        if_neg hctl]
      rw [if_neg, if_neg]
      · simp only [decide_eq_true_eq, Bool.or_eq_true]
        tauto
      · simp only [decide_eq_true_eq, Bool.or_eq_true]
        tauto]
    rw [show ([c] : List Nat) ++ rest = c :: rest from rfl, parseStringBody.eq_def]
    simp [h34, h92, hctl]

/-! #### Integer literals -/

theorem natToDigits_all_digits (n : Nat) :
    ∀ d ∈ natToDigits n, isDigitByte d = true := by
  intro d hd
  unfold natToDigits at hd
  by_cases h0 : n = 0
  · simp only [h0, if_true, List.mem_singleton] at hd
    subst hd; decide
  · simp only [h0, if_false, List.mem_map, List.mem_reverse] at hd
    obtain ⟨x, hx, rfl⟩ := hd
    have := Nat.digits_lt_base (by omega) hx
    simp only [isDigitByte, Bool.and_eq_true, decide_eq_true_eq]
    omega

theorem natToDigits_head (n : Nat) :
    ∃ c t, natToDigits n = c :: t ∧ isDigitByte c = true ∧ (n ≠ 0 → c ≠ 48) := by
  by_cases h0 : n = 0
  · subst h0
    exact ⟨48, [], rfl, by decide, fun h => absurd rfl h⟩
  · have hne : Nat.digits 10 n ≠ [] := Nat.digits_ne_nil_iff_ne_zero.mpr h0
    cases hrev : (Nat.digits 10 n).reverse with
    | nil => exact absurd (by simpa using congrArg List.reverse hrev) hne
    | cons c t =>
      have hl : Nat.digits 10 n = t.reverse ++ [c] := by
        have := congrArg List.reverse hrev
        simpa using this
      have hmem : c ∈ Nat.digits 10 n := by rw [hl]; simp
      have hc10 : c < 10 := Nat.digits_lt_base (by omega) hmem
      have hc0 : c ≠ 0 := by
        have h1 := Nat.getLast_digit_ne_zero 10 h0
        have h2 : (Nat.digits 10 n).getLast hne = c := by
          have : (Nat.digits 10 n).getLast? = some c := by
            rw [hl, List.getLast?_concat]
          rwa [List.getLast?_eq_getLast _ hne, Option.some_inj] at this
        rwa [h2] at h1
      refine ⟨c + 48, t.map (fun d => d + 48), ?_, ?_, fun _ => by omega⟩
      · unfold natToDigits
        rw [if_neg h0, hrev, List.map_cons]
      · simp only [isDigitByte, Bool.and_eq_true, decide_eq_true_eq]
        omega

theorem parseDigitsLoop_run (ds : List Nat) :
    ∀ (acc : Nat) (rest : List Nat), (∀ d ∈ ds, isDigitByte d = true) →
      noDigitAhead rest = true →
      parseDigitsLoop acc (ds ++ rest)
        = (ds.foldl (fun a c => a * 10 + (c - 48)) acc, rest) := by
  induction ds with
  | nil =>
    intro acc rest _ hrest
    cases rest with
    | nil => rfl
    | cons c t =>
      have hc : isDigitByte c = false := by
        simpa [noDigitAhead] using hrest
      simp [parseDigitsLoop, hc]
  | cons d tl ih =>
    intro acc rest hds hrest
    have hd : isDigitByte d = true := hds d (by simp)
    rw [List.cons_append, show parseDigitsLoop acc (d :: (tl ++ rest))
        = if isDigitByte d then parseDigitsLoop (acc * 10 + (d - 48)) (tl ++ rest)
          else (acc, d :: (tl ++ rest)) from rfl, if_pos hd,
      ih _ rest (fun x hx => hds x (List.mem_cons_of_mem _ hx)) hrest]
    simp

theorem foldl_base10_reverse (L : List Nat) :
    ∀ acc : Nat, L.reverse.foldl (fun a d => a * 10 + d) acc
      = acc * 10 ^ L.length + Nat.ofDigits 10 L := by
  induction L with
  | nil => intro acc; simp [Nat.ofDigits]
  | cons d tl ih =>
    intro acc
    simp only [List.reverse_cons, List.foldl_append, List.foldl_cons,
      List.foldl_nil, ih, Nat.ofDigits_cons, List.length_cons]
    ring

theorem foldl_digits_value (n : Nat) :
    (natToDigits n).foldl (fun a c => a * 10 + (c - 48)) 0 = n := by
  unfold natToDigits
  by_cases h0 : n = 0
  · simp [h0]
  · rw [if_neg h0, List.foldl_map]
    simp only [Nat.add_sub_cancel]
    rw [foldl_base10_reverse]
    simpa using Nat.ofDigits_digits 10 n

theorem parseNatLit_natToDigits (n : Nat) (rest : List Nat)
    (hrest : noDigitAhead rest = true) :
    parseNatLit (natToDigits n ++ rest) = some (n, rest) := by
  by_cases h0 : n = 0
  · subst h0
    rw [show natToDigits 0 ++ rest = 48 :: rest from rfl, parseNatLit.eq_def]
    cases rest with
    | nil => simp
    | cons c t =>
      have hc : isDigitByte c = false := by simpa [noDigitAhead] using hrest
      simp [hc]
  · obtain ⟨c, t, hct, hcd, hc48⟩ := natToDigits_head n
    have hc48' := hc48 h0
    rw [hct, List.cons_append, parseNatLit.eq_def]
    simp only [if_neg hc48', hcd, if_true]
    have hall : ∀ d ∈ t, isDigitByte d = true := fun d hd =>
      natToDigits_all_digits n d (by rw [hct]; exact List.mem_cons_of_mem _ hd)
    rw [parseDigitsLoop_run t (c - 48) rest hall hrest]
    have hv : (c :: t).foldl (fun a x => a * 10 + (x - 48)) 0 = n := by
      rw [← hct]; exact foldl_digits_value n
    simp only [List.foldl_cons, Nat.zero_mul, Nat.zero_add] at hv
    rw [hv]

theorem parseIntLit_serInt (i : Int) (rest : List Nat)
    (hrest : noDigitAhead rest = true) :
    parseIntLit (serInt i ++ rest) = some (i, rest) := by
  by_cases hneg : i < 0
  · have hstep : parseIntLit (45 :: (natToDigits i.natAbs ++ rest))
        = (fun p => (-(p.1 : Int), p.2)) <$> parseNatLit (natToDigits i.natAbs ++ rest) := rfl
    rw [show serInt i = 45 :: natToDigits i.natAbs from by simp [serInt, hneg],
      List.cons_append, hstep, parseNatLit_natToDigits _ _ hrest]
    simp only [Option.map_some]
    have : -(i.natAbs : Int) = i := by omega
    rw [this]
  · obtain ⟨c, t, hct, hcd, _⟩ := natToDigits_head i.toNat
    have hser : serInt i = natToDigits i.toNat := by simp [serInt, hneg]
    have hc45 : ¬(c = 45) := by
      simp only [isDigitByte, Bool.and_eq_true, decide_eq_true_eq] at hcd
      omega
    have hstep : parseIntLit (c :: (t ++ rest))
        = if c = 45 then ((fun p => (-(p.1 : Int), p.2)) <$> parseNatLit (t ++ rest))
          else ((fun p => ((p.1 : Int), p.2)) <$> parseNatLit (c :: (t ++ rest))) := rfl
    rw [hser, hct, List.cons_append, hstep, if_neg hc45,
      ← List.cons_append, ← hct, parseNatLit_natToDigits _ _ hrest]
    simp only [Option.map_some]
    have : (i.toNat : Int) = i := by omega
    rw [this]

theorem parseStringBody_escapeString (s : List Nat) :
    ∀ rest : List Nat,
      parseStringBody (escapeString s ++ (34 :: rest)) = some (s, rest) := by
  induction s with
  | nil =>
    intro rest
    rw [show escapeString [] ++ (34 :: rest) = 34 :: rest from rfl,
      parseStringBody.eq_def]
    simp
  | cons c tl ih =>
    intro rest
    have : escapeString (c :: tl) ++ (34 :: rest)
        = escapeChar c ++ (escapeString tl ++ (34 :: rest)) := by
      simp [escapeString]
    rw [this, parseStringBody_escapeChar, ih]
    rfl

/-! #### Heads of serialized output

Every serialized value starts with a token byte: no whitespace, no closing
bracket, no comma.  These facts drive the parser's dispatch in the
round-trip proof. -/

theorem serInt_head (i : Int) :
    ∃ c t, serInt i = c :: t ∧ (c = 45 ∨ (48 ≤ c ∧ c ≤ 57)) := by
  by_cases hneg : i < 0
  · exact ⟨45, natToDigits i.natAbs, by simp [serInt, hneg], Or.inl rfl⟩
  · obtain ⟨c, t, hct, hcd, _⟩ := natToDigits_head i.toNat
    refine ⟨c, t, ?_, Or.inr ?_⟩
    · rw [show serInt i = natToDigits i.toNat from by simp [serInt, hneg], hct]
    · simpa [isDigitByte] using hcd

theorem serValue_head (v : JSONValue) (ind : Nat) :
    ∃ c t, serValue v ind = c :: t ∧ isSpaceByte c = false ∧
      c ≠ 93 ∧ c ≠ 125 ∧ c ≠ 44 := by
  cases v with
  | null => exact ⟨110, [117, 108, 108], by simp [serValue], by decide, by decide,
      by decide, by decide⟩
  | bool b =>
    cases b with
    | false => exact ⟨102, [97, 108, 115, 101], by simp [serValue], by decide, by decide,
        by decide, by decide⟩
    | true => exact ⟨116, [114, 117, 101], by simp [serValue], by decide, by decide,
        by decide, by decide⟩
  | num n =>
    obtain ⟨c, t, hct, hc⟩ := serInt_head n
    have hc' : c = 45 ∨ (48 ≤ c ∧ c ≤ 57) := hc
    refine ⟨c, t, by simp [serValue, hct], ?_, ?_, ?_, ?_⟩
    · rcases hc' with h | h
      · subst h; decide
      · simp only [isSpaceByte, Bool.or_eq_false_iff, decide_eq_false_iff_not]
        omega
    all_goals rcases hc' with h | h
    · subst h; decide
    · omega
    · subst h; decide
    · omega
    · subst h; decide
    · omega
  | str s => exact ⟨34, escapeString s ++ [34], by simp [serValue, quoteString],
      by decide, by decide, by decide, by decide⟩
  | arr items =>
    cases items with
    | nil => exact ⟨91, [93], by simp [serValue], by decide, by decide, by decide,
        by decide⟩
    | cons v tl => exact ⟨91,
        10 :: (serItems (v :: tl) (ind + 1) ++ 10 :: (padding ind ++ [93])),
        by simp [serValue], by decide, by decide, by decide, by decide⟩
  | obj ms =>
    cases ms with
    | nil => exact ⟨123, [125], by simp [serValue], by decide, by decide, by decide,
        by decide⟩
    | cons m tl => exact ⟨123,
        10 :: (serMembers (m :: tl) (ind + 1) ++ 10 :: (padding ind ++ [125])),
        by simp [serValue], by decide, by decide, by decide, by decide⟩

theorem skipWS_serValue (v : JSONValue) (ind : Nat) (x : List Nat) :
    skipWS (serValue v ind ++ x) = serValue v ind ++ x := by
  obtain ⟨c, t, hct, hsp, _, _, _⟩ := serValue_head v ind
  rw [hct, List.cons_append, skipWS_of_head_not_space _ hsp]

theorem serItems_cons_decomp (v : JSONValue) (tl : List JSONValue) (ind : Nat) :
    ∃ w, serItems (v :: tl) ind = padding ind ++ (serValue v ind ++ w) := by
  cases tl with
  | nil => exact ⟨[], by simp [serItems]⟩
  | cons v2 tl2 => exact ⟨44 :: 10 :: serItems (v2 :: tl2) ind, by simp [serItems]⟩

theorem serMembers_cons_decomp (k : List Nat) (v : JSONValue)
    (tl : List (List Nat × JSONValue)) (ind : Nat) :
    ∃ w, serMembers ((k, v) :: tl) ind = padding ind ++ (34 :: w) := by
  cases tl with
  | nil =>
    exact ⟨escapeString k ++ [34] ++ (58 :: 32 :: serValue v ind),
      by simp [serMembers, quoteString]⟩
  | cons m2 tl2 =>
    exact ⟨escapeString k ++ [34]
        ++ (58 :: 32 :: (serValue v ind ++ 44 :: 10 :: serMembers (m2 :: tl2) ind)),
      by simp [serMembers, quoteString]⟩

/-! #### Key order and canonical insertion -/

theorem keyLt_irrefl : ∀ a : List Nat, keyLt a a = false
  | [] => rfl
  | x :: xs => by simp [keyLt, keyLt_irrefl xs]

theorem keyLt_ne {a b : List Nat} (h : keyLt a b = true) : a ≠ b := by
  intro heq
  subst heq
  rw [keyLt_irrefl] at h
  exact Bool.noConfusion h

theorem keyLt_asymm : ∀ a b : List Nat, keyLt a b = true → keyLt b a = false
  | [], [], h => by simp [keyLt] at h
  | [], _ :: _, _ => by simp [keyLt]
  | _ :: _, [], h => by simp [keyLt] at h
  | a :: as, b :: bs, h => by
    simp only [keyLt] at h ⊢
    by_cases h1 : a < b
    · simp [show ¬b < a by omega, h1]
    · by_cases h2 : b < a
      · simp [h1, h2] at h
      · simp only [h1, if_false, h2, if_false] at h ⊢
        exact keyLt_asymm as bs h

theorem keyLt_trans : ∀ a b c : List Nat,
    keyLt a b = true → keyLt b c = true → keyLt a c = true
  | [], [], _, h1, _ => by simp [keyLt] at h1
  | [], _ :: _, [], _, h2 => by simp [keyLt] at h2
  | [], _ :: _, _ :: _, _, _ => by simp [keyLt]
  | _ :: _, [], _, h1, _ => by simp [keyLt] at h1
  | _ :: _, _ :: _, [], _, h2 => by simp [keyLt] at h2
  | a :: as, b :: bs, c :: cs, h1, h2 => by
    simp only [keyLt] at h1 h2 ⊢
    by_cases hab : a < b
    · by_cases hbc : b < c
      · simp [show a < c by omega]
      · by_cases hcb : c < b
        · simp [hab, hbc, hcb] at h2
        · have : b = c := by omega
          subst this
          simp [hab]
    · by_cases hba : b < a
      · simp [hab, hba] at h1
      · have : a = b := by omega
        subst this
        simp only [hab, if_false] at h1 h2 ⊢
        by_cases hbc : a < c
        · simp [hbc]
        · by_cases hcb : c < a
          · simp [hbc, hcb] at h2
          · simp only [hbc, if_false, hcb, if_false] at h2 ⊢
            exact keyLt_trans as bs cs h1 h2

theorem keyLt_total : ∀ a b : List Nat,
    a = b ∨ keyLt a b = true ∨ keyLt b a = true
  | [], [] => Or.inl rfl
  | [], _ :: _ => Or.inr (Or.inl rfl)
  | _ :: _, [] => Or.inr (Or.inr rfl)
  | a :: as, b :: bs => by
    rcases Nat.lt_trichotomy a b with h | h | h
    · exact Or.inr (Or.inl (by simp [keyLt, h]))
    · subst h
      rcases keyLt_total as bs with h2 | h2 | h2
      · exact Or.inl (by rw [h2])
      · exact Or.inr (Or.inl (by simp [keyLt, Nat.lt_irrefl, h2]))
      · exact Or.inr (Or.inr (by simp [keyLt, Nat.lt_irrefl, h2]))
    · exact Or.inr (Or.inr (by simp [keyLt, h]))

theorem insertKV_of_keysAllBelow (k : List Nat) (v : JSONValue) :
    ∀ ms : List (List Nat × JSONValue), keysAllBelow ms k = true →
      insertKV k v ms = ms ++ [(k, v)]
  | [], _ => rfl
  | (k2, v2) :: tl, h => by
    simp only [keysAllBelow, List.all_cons, Bool.and_eq_true,
      decide_eq_true_eq] at h
    have hk2 : keyLt k2 k = true := h.1
    have htl : keysAllBelow tl k = true := by
      simpa [keysAllBelow] using h.2
    unfold insertKV
    rw [if_neg (Ne.symm (keyLt_ne hk2)),
      if_neg (by rw [keyLt_asymm _ _ hk2]; exact Bool.noConfusion),
      insertKV_of_keysAllBelow k v tl htl]
    simp

theorem keyBelow_mem (k : List Nat) :
    ∀ (ms : List (List Nat × JSONValue)) (p : List Nat × JSONValue),
      keyBelow k ms = true → p ∈ ms → keyLt k p.1 = true
  | [], p, _, hp => absurd hp (List.not_mem_nil p)
  | (k2, v2) :: tl, p, h, hp => by
    simp only [keyBelow, Bool.and_eq_true] at h
    rcases hp with _ | hp'
    · exact h.1
    · exact keyBelow_mem k tl p h.2 (by assumption)

theorem keyBelow_of_lt {k k2 : List Nat} (h : keyLt k k2 = true) :
    ∀ tl : List (List Nat × JSONValue),
      keyBelow k2 tl = true → keyBelow k tl = true
  | [], _ => rfl
  | (k3, v3) :: tl, h2 => by
    simp only [keyBelow, Bool.and_eq_true] at h2 ⊢
    exact ⟨keyLt_trans _ _ _ h h2.1, keyBelow_of_lt h tl h2.2⟩

theorem keyBelow_insertKV {k0 k : List Nat} {v : JSONValue}
    (hlt : keyLt k0 k = true) :
    ∀ ms : List (List Nat × JSONValue),
      keyBelow k0 ms = true → keyBelow k0 (insertKV k v ms) = true
  | [], _ => by simp [insertKV, keyBelow, hlt]
  | (k2, v2) :: tl, h => by
    simp only [keyBelow, Bool.and_eq_true] at h
    unfold insertKV
    by_cases he : k = k2
    · subst he; simp [keyBelow, hlt, h.2]
    · by_cases hl : keyLt k k2
      · simp [he, hl, keyBelow, hlt, h.1, h.2]
      · simp only [he, if_false, hl, if_false, keyBelow, Bool.and_eq_true]
        exact ⟨h.1, keyBelow_insertKV hlt tl h.2⟩

theorem insertKV_objSorted (k : List Nat) (v : JSONValue) :
    ∀ ms : List (List Nat × JSONValue),
      objSorted ms = true → objSorted (insertKV k v ms) = true
  | [], _ => by simp [insertKV, objSorted, keyBelow]
  | (k2, v2) :: tl, h => by
    simp only [objSorted, Bool.and_eq_true] at h
    unfold insertKV
    by_cases he : k = k2
    · subst he; simp [objSorted, h.1, h.2]
    · by_cases hl : keyLt k k2
      · have hb : keyBelow k tl = true := keyBelow_of_lt hl tl h.1
        simp [he, hl, objSorted, keyBelow, h.1, h.2, hb]
      · have hk2k : keyLt k2 k = true := by
          rcases keyLt_total k k2 with h3 | h3 | h3
          · exact absurd h3 he
          · exact absurd h3 hl
          · exact h3
        simp only [he, if_false, hl, if_false, objSorted, Bool.and_eq_true]
        exact ⟨keyBelow_insertKV hk2k tl h.1, insertKV_objSorted k v tl h.2⟩

theorem insertKV_wfMembers (k : List Nat) (v : JSONValue)
    (hv : wfValue v = true) :
    ∀ ms : List (List Nat × JSONValue),
      wfMembers ms = true → wfMembers (insertKV k v ms) = true
  | [], _ => by simp [insertKV, wfMembers, hv]
  | (k2, v2) :: tl, h => by
    simp only [wfMembers, Bool.and_eq_true] at h
    unfold insertKV
    by_cases he : k = k2
    · subst he; simp [wfMembers, hv, h.2]
    · by_cases hl : keyLt k k2
      · simp [he, hl, wfMembers, hv, h.1, h.2]
      · simp only [he, if_false, hl, if_false, wfMembers, Bool.and_eq_true]
        exact ⟨h.1, insertKV_wfMembers k v hv tl h.2⟩

/-! #### Fuel adequacy: a value needs no more fuel than its text is long -/

mutual
theorem sizeValue_le_length : ∀ (v : JSONValue) (ind : Nat),
    sizeValue v ≤ (serValue v ind).length
  | .null, _ => by simp [serValue, sizeValue]
  | .bool b, _ => by cases b <;> simp [serValue, sizeValue]
  | .num n, ind => by
    obtain ⟨c, t, hct, _⟩ := serInt_head n
    simp [serValue, sizeValue, hct]
  | .str s, _ => by simp [serValue, sizeValue, quoteString]
  | .arr [], _ => by simp [serValue, sizeValue, sizeItems]
  | .arr (v :: tl), ind => by
    have h := sizeItems_le_length v tl (ind + 1)
    simp only [serValue, sizeValue, List.length_cons, List.length_append]
    omega
  | .obj [], _ => by simp [serValue, sizeValue, sizeMembers]
  | .obj ((k, v2) :: tl), ind => by
    have h := sizeMembers_le_length k v2 tl (ind + 1)
    simp only [serValue, sizeValue, List.length_cons, List.length_append]
    omega
termination_by v _ => sizeOf v
theorem sizeItems_le_length : ∀ (v : JSONValue) (tl : List JSONValue) (ind : Nat),
    sizeItems (v :: tl) ≤ (serItems (v :: tl) ind).length + 1
  | v, [], ind => by
    have h := sizeValue_le_length v ind
    simp only [serItems, sizeItems, List.length_append]
    omega
  | v, v2 :: tl2, ind => by
    have h1 := sizeValue_le_length v ind
    have h2 := sizeItems_le_length v2 tl2 ind
    simp only [serItems, sizeItems, List.length_append, List.length_cons] at h2 ⊢
    omega
termination_by v tl _ => sizeOf v + sizeOf tl
theorem sizeMembers_le_length : ∀ (k : List Nat) (v : JSONValue)
    (tl : List (List Nat × JSONValue)) (ind : Nat),
    sizeMembers ((k, v) :: tl) ≤ (serMembers ((k, v) :: tl) ind).length + 1
  | k, v, [], ind => by
    have h := sizeValue_le_length v ind
    simp only [serMembers, sizeMembers, List.length_append, List.length_cons]
    omega
  | k, v, m2 :: tl2, ind => by
    have h1 := sizeValue_le_length v ind
    obtain ⟨k2, v2⟩ := m2
    have h2 := sizeMembers_le_length k2 v2 tl2 ind
    simp only [serMembers, sizeMembers, List.length_append, List.length_cons] at h2 ⊢
    omega
termination_by _ v tl _ => sizeOf v + sizeOf tl
end

/-! #### The round trip proper

Parsing a serialized value (with enough fuel, with the value's objects in
canonical form, and with a non-digit boundary after the text) recovers the
value exactly.  The three levels mirror the parser/serializer recursion. -/

mutual
theorem parseValue_serValue : ∀ (v : JSONValue) (ind fuel : Nat) (rest : List Nat),
    wfValue v = true → sizeValue v ≤ fuel → noDigitAhead rest = true →
    parseValue fuel (serValue v ind ++ rest) = some (v, rest)
  | .null, ind, fuel, rest, _, hsz, _ => by
    cases fuel with
    | zero => simp [sizeValue] at hsz
    | succ f =>
      rw [show serValue .null ind = [110, 117, 108, 108] from by simp [serValue]]
      rfl
  | .bool true, ind, fuel, rest, _, hsz, _ => by
    cases fuel with
    | zero => simp [sizeValue] at hsz
    | succ f =>
      rw [show serValue (.bool true) ind = [116, 114, 117, 101] from by
        simp [serValue]]
      rfl
  | .bool false, ind, fuel, rest, _, hsz, _ => by
    cases fuel with
    | zero => simp [sizeValue] at hsz
    | succ f =>
      rw [show serValue (.bool false) ind = [102, 97, 108, 115, 101] from by
        simp [serValue]]
      rfl
  | .num n, ind, fuel, rest, _, hsz, hrest => by
    cases fuel with
    | zero => simp [sizeValue] at hsz
    | succ f =>
      obtain ⟨c, t, hct, hc⟩ := serInt_head n
      have h110 : ¬(c = 110) := by rcases hc with h | h <;> omega
      have h116 : ¬(c = 116) := by rcases hc with h | h <;> omega
      have h102 : ¬(c = 102) := by rcases hc with h | h <;> omega
      have h34 : ¬(c = 34) := by rcases hc with h | h <;> omega
      have h91 : ¬(c = 91) := by rcases hc with h | h <;> omega
      have h123 : ¬(c = 123) := by rcases hc with h | h <;> omega
      rw [show serValue (.num n) ind = serInt n from by simp [serValue], hct,
        List.cons_append]
      simp only [parseValue]
      rw [if_neg h110, if_neg h116, if_neg h102, if_neg h34, if_neg h91, if_neg h123,
        ← List.cons_append, ← hct, parseIntLit_serInt n rest hrest]
      rfl
  | .str s, ind, fuel, rest, _, hsz, _ => by
    cases fuel with
    | zero => simp [sizeValue] at hsz
    | succ f =>
      have harg : serValue (.str s) ind ++ rest
          = 34 :: (escapeString s ++ (34 :: rest)) := by
        simp [serValue, quoteString]
      rw [harg,
        show parseValue (f + 1) (34 :: (escapeString s ++ (34 :: rest)))
          = (fun p => (JSONValue.str p.1, p.2)) <$>
              parseStringBody (escapeString s ++ (34 :: rest)) from rfl,
        parseStringBody_escapeString]
      rfl
  | .arr [], ind, fuel, rest, _, hsz, _ => by
    cases fuel with
    | zero => simp [sizeValue, sizeItems] at hsz
    | succ f =>
      rw [show serValue (.arr []) ind = [91, 93] from by simp [serValue]]
      rfl
  | .arr (v :: tl), ind, fuel, rest, hwf, hsz, hrest => by
    cases fuel with
    | zero => simp [sizeValue, sizeItems] at hsz
    | succ f =>
      have harg : serValue (.arr (v :: tl)) ind ++ rest
          = 91 :: (10 :: (serItems (v :: tl) (ind + 1)
              ++ (10 :: (padding ind ++ 93 :: rest)))) := by
        simp [serValue]
      rw [harg]
      set close := 10 :: (padding ind ++ 93 :: rest) with hcd
      rw [show parseValue (f + 1)
            (91 :: (10 :: (serItems (v :: tl) (ind + 1) ++ close)))
          = (match skipWS (10 :: (serItems (v :: tl) (ind + 1) ++ close)) with
             | [] => none
             | c2 :: r =>
               if c2 = 93 then some (JSONValue.arr [], r)
               else (fun p => (JSONValue.arr p.1, p.2)) <$> parseItems f (c2 :: r))
          from rfl,
        skipWS_space _ (by decide)]
      obtain ⟨w, hw⟩ := serItems_cons_decomp v tl (ind + 1)
      obtain ⟨c, t, hct, hsp, h93, _, _⟩ := serValue_head v (ind + 1)
      have hskip : skipWS (serItems (v :: tl) (ind + 1) ++ close)
          = c :: (t ++ (w ++ close)) := by
        rw [hw]
        simp only [List.append_assoc]
        rw [skipWS_padding, hct]
        simp only [List.cons_append]
        rw [skipWS_of_head_not_space _ hsp]
      have hwf2 : wfItems (v :: tl) = true := by simpa [wfValue] using hwf
      have hsz2 : sizeItems (v :: tl) ≤ f := by
        simp only [sizeValue] at hsz; omega
      have hcl : skipWS close = 93 :: rest := by
        rw [hcd, skipWS_space _ (by decide), skipWS_padding,
          skipWS_of_head_not_space _ (by decide)]
      have hitems := parseItems_serItems v tl (ind + 1) f close rest hwf2 hsz2 hcl
        (by rw [hcd]; rfl)
      rw [hskip] at hitems
      rw [hskip]
      simp [h93, hitems]
  | .obj [], ind, fuel, rest, _, hsz, _ => by
    cases fuel with
    | zero => simp [sizeValue, sizeMembers] at hsz
    | succ f =>
      rw [show serValue (.obj []) ind = [123, 125] from by simp [serValue]]
      rfl
  | .obj ((k, v) :: tl), ind, fuel, rest, hwf, hsz, hrest => by
    cases fuel with
    | zero => simp [sizeValue, sizeMembers] at hsz
    | succ f =>
      have harg : serValue (.obj ((k, v) :: tl)) ind ++ rest
          = 123 :: (10 :: (serMembers ((k, v) :: tl) (ind + 1)
              ++ (10 :: (padding ind ++ 125 :: rest)))) := by
        simp [serValue]
      rw [harg]
      set close := 10 :: (padding ind ++ 125 :: rest) with hcd
      rw [show parseValue (f + 1)
            (123 :: (10 :: (serMembers ((k, v) :: tl) (ind + 1) ++ close)))
          = (match skipWS (10 :: (serMembers ((k, v) :: tl) (ind + 1) ++ close)) with
             | [] => none
             | c2 :: r =>
               if c2 = 125 then some (JSONValue.obj [], r)
               else (fun p => (JSONValue.obj p.1, p.2)) <$> parseMembers f [] (c2 :: r))
          from rfl,
        skipWS_space _ (by decide)]
      obtain ⟨w, hw⟩ := serMembers_cons_decomp k v tl (ind + 1)
      have hskip : skipWS (serMembers ((k, v) :: tl) (ind + 1) ++ close)
          = 34 :: (w ++ close) := by
        rw [hw]
        simp only [List.append_assoc]
        rw [skipWS_padding]
        simp only [List.cons_append]
        rw [skipWS_of_head_not_space _ (by decide)]
      have hwfs : objSorted ((k, v) :: tl) = true := by
        simp only [wfValue, Bool.and_eq_true] at hwf; exact hwf.1
      have hwfm : wfMembers ((k, v) :: tl) = true := by
        simp only [wfValue, Bool.and_eq_true] at hwf; exact hwf.2
      have hsz2 : sizeMembers ((k, v) :: tl) ≤ f := by
        simp only [sizeValue] at hsz; omega
      have hcl : skipWS close = 125 :: rest := by
        rw [hcd, skipWS_space _ (by decide), skipWS_padding,
          skipWS_of_head_not_space _ (by decide)]
      have hmem := parseMembers_serMembers k v tl [] (ind + 1) f close rest hwfm hwfs
        hsz2 hcl (by rw [hcd]; rfl) (fun p _ => rfl)
      rw [hskip] at hmem
      rw [hskip]
      simp [hmem]
termination_by v _ _ _ _ _ _ => sizeOf v
theorem parseItems_serItems : ∀ (v : JSONValue) (tl : List JSONValue)
    (ind fuel : Nat) (close rest : List Nat),
    wfItems (v :: tl) = true → sizeItems (v :: tl) ≤ fuel →
    skipWS close = 93 :: rest → noDigitAhead close = true →
    parseItems fuel (skipWS (serItems (v :: tl) ind ++ close)) = some (v :: tl, rest)
  | v, [], ind, fuel, close, rest, hwf, hsz, hcl, hnd => by
    cases fuel with
    | zero => simp [sizeItems] at hsz
    | succ f =>
      have hskip : skipWS (serItems [v] ind ++ close) = serValue v ind ++ close := by
        rw [show serItems [v] ind = padding ind ++ serValue v ind from by
          simp [serItems], List.append_assoc, skipWS_padding, skipWS_serValue]
      have hv : wfValue v = true := by simpa [wfItems] using hwf
      have hszv : sizeValue v ≤ f := by simp only [sizeItems] at hsz; omega
      rw [hskip]
      simp only [parseItems]
      rw [parseValue_serValue v ind f close hv hszv hnd]
      simp [hcl]
  | v, v2 :: tl2, ind, fuel, close, rest, hwf, hsz, hcl, hnd => by
    cases fuel with
    | zero => simp [sizeItems] at hsz
    | succ f =>
      have hskip : skipWS (serItems (v :: v2 :: tl2) ind ++ close)
          = serValue v ind ++ (44 :: 10 :: (serItems (v2 :: tl2) ind ++ close)) := by
        rw [show serItems (v :: v2 :: tl2) ind
            = padding ind ++ (serValue v ind ++ 44 :: 10 :: serItems (v2 :: tl2) ind)
            from by simp [serItems]]
        simp only [List.append_assoc, List.cons_append]
        rw [skipWS_padding, skipWS_serValue]
      have hv : wfValue v = true := by
        simp only [wfItems, Bool.and_eq_true] at hwf; exact hwf.1
      have hv2 : wfItems (v2 :: tl2) = true := by
        simp only [wfItems, Bool.and_eq_true] at hwf ⊢
        exact hwf.2
      have hszv : sizeValue v ≤ f := by simp only [sizeItems] at hsz; omega
      have hszi : sizeItems (v2 :: tl2) ≤ f := by
        simp only [sizeItems] at hsz ⊢; omega
      have hval := parseValue_serValue v ind f
        (44 :: 10 :: (serItems (v2 :: tl2) ind ++ close)) hv hszv rfl
      have hrec := parseItems_serItems v2 tl2 ind f close rest hv2 hszi hcl hnd
      rw [hskip]
      simp only [parseItems]
      rw [hval]
      simp [skipWS, isSpaceByte, hrec]
termination_by v tl _ _ _ _ _ _ _ _ => sizeOf v + sizeOf tl
theorem parseMembers_serMembers : ∀ (k : List Nat) (v : JSONValue)
    (tl : List (List Nat × JSONValue)) (acc : List (List Nat × JSONValue))
    (ind fuel : Nat) (close rest : List Nat),
    wfMembers ((k, v) :: tl) = true → objSorted ((k, v) :: tl) = true →
    sizeMembers ((k, v) :: tl) ≤ fuel →
    skipWS close = 125 :: rest → noDigitAhead close = true →
    (∀ p ∈ (k, v) :: tl, keysAllBelow acc p.1 = true) →
    parseMembers fuel acc (skipWS (serMembers ((k, v) :: tl) ind ++ close))
      = some (acc ++ (k, v) :: tl, rest)
  | k, v, [], acc, ind, fuel, close, rest, hwfm, hsrt, hsz, hcl, hnd, hacc => by
    cases fuel with
    | zero => simp [sizeMembers] at hsz
    | succ f =>
      have hskip : skipWS (serMembers [(k, v)] ind ++ close)
          = 34 :: (escapeString k ++ (34 :: (58 :: 32 :: (serValue v ind ++ close)))) := by
        rw [show serMembers [(k, v)] ind
            = padding ind ++ (quoteString k ++ 58 :: 32 :: serValue v ind)
            from by simp [serMembers]]
        simp only [quoteString, List.append_assoc, List.cons_append]
        rw [skipWS_padding, skipWS_of_head_not_space _ (by decide)]
        simp [List.append_assoc]
      have hv : wfValue v = true := by simpa [wfMembers] using hwfm
      have hszv : sizeValue v ≤ f := by simp only [sizeMembers] at hsz; omega
      have hval := parseValue_serValue v ind f close hv hszv hnd
      have hins := insertKV_of_keysAllBelow k v acc (hacc (k, v) (by simp))
      rw [hskip,
        show parseMembers (f + 1) acc
            (34 :: (escapeString k ++ (34 :: (58 :: 32 :: (serValue v ind ++ close)))))
          = (match parseStringBody
              (escapeString k ++ (34 :: (58 :: 32 :: (serValue v ind ++ close)))) with
             | none => none
             | some (k2, s2) =>
               match skipWS s2 with
               | [] => none
               | c1 :: s3 =>
                 if c1 = 58 then
                   match parseValue f (skipWS s3) with
                   | none => none
                   | some (v2, s4) =>
                     match skipWS s4 with
                     | [] => none
                     | c2 :: s5 =>
                       if c2 = 44 then parseMembers f (insertKV k2 v2 acc) (skipWS s5)
                       else if c2 = 125 then some (insertKV k2 v2 acc, s5)
                       else none
                 else none) from rfl,
        parseStringBody_escapeString]
      simp [skipWS, isSpaceByte, skipWS_serValue, hval, hcl, hins]
  | k, v, (k2, v2) :: tl2, acc, ind, fuel, close, rest, hwfm, hsrt, hsz, hcl, hnd,
      hacc => by
    cases fuel with
    | zero => simp [sizeMembers] at hsz
    | succ f =>
      have hskip : skipWS (serMembers ((k, v) :: (k2, v2) :: tl2) ind ++ close)
          = 34 :: (escapeString k ++ (34 :: (58 :: 32 :: (serValue v ind
              ++ (44 :: 10 :: (serMembers ((k2, v2) :: tl2) ind ++ close)))))) := by
        rw [show serMembers ((k, v) :: (k2, v2) :: tl2) ind
            = padding ind ++ (quoteString k ++ 58 :: 32 :: (serValue v ind
                ++ 44 :: 10 :: serMembers ((k2, v2) :: tl2) ind))
            from by simp [serMembers]]
        simp only [quoteString, List.append_assoc, List.cons_append]
        rw [skipWS_padding, skipWS_of_head_not_space _ (by decide)]
        simp [List.append_assoc]
      have hv : wfValue v = true := by
        simp only [wfMembers, Bool.and_eq_true] at hwfm; exact hwfm.1
      have hwfm2 : wfMembers ((k2, v2) :: tl2) = true := by
        simp only [wfMembers, Bool.and_eq_true] at hwfm ⊢
        exact hwfm.2
      have hbelow : keyBelow k ((k2, v2) :: tl2) = true := by
        simp only [objSorted, Bool.and_eq_true] at hsrt
        exact hsrt.1
      have hsrt2 : objSorted ((k2, v2) :: tl2) = true := by
        simp only [objSorted, Bool.and_eq_true] at hsrt ⊢
        exact hsrt.2
      have hszv : sizeValue v ≤ f := by simp only [sizeMembers] at hsz; omega
      have hszm : sizeMembers ((k2, v2) :: tl2) ≤ f := by
        simp only [sizeMembers] at hsz ⊢; omega
      have hacc2 : ∀ p ∈ (k2, v2) :: tl2,
          keysAllBelow (acc ++ [(k, v)]) p.1 = true := by
        intro p hp
        have h1 : keysAllBelow acc p.1 = true :=
          hacc p (List.mem_cons_of_mem _ hp)
        have h2 : keyLt k p.1 = true := keyBelow_mem k _ p hbelow hp
        simp only [keysAllBelow, List.all_append, List.all_cons, List.all_nil,
          Bool.and_eq_true, decide_eq_true_eq] at h1 ⊢
        exact ⟨h1, h2, trivial⟩
      have hval := parseValue_serValue v ind f
        (44 :: 10 :: (serMembers ((k2, v2) :: tl2) ind ++ close)) hv hszv rfl
      have hins := insertKV_of_keysAllBelow k v acc (hacc (k, v) (by simp))
      have hrec := parseMembers_serMembers k2 v2 tl2 (acc ++ [(k, v)]) ind f close
        rest hwfm2 hsrt2 hszm hcl hnd hacc2
      rw [hskip,
        show parseMembers (f + 1) acc
            (34 :: (escapeString k ++ (34 :: (58 :: 32 :: (serValue v ind
              ++ (44 :: 10 :: (serMembers ((k2, v2) :: tl2) ind ++ close)))))))
          = (match parseStringBody
              (escapeString k ++ (34 :: (58 :: 32 :: (serValue v ind
                ++ (44 :: 10 :: (serMembers ((k2, v2) :: tl2) ind ++ close)))))) with
             | none => none
             | some (k3, s2) =>
               match skipWS s2 with
               | [] => none
               | c1 :: s3 =>
                 if c1 = 58 then
                   match parseValue f (skipWS s3) with
                   | none => none
                   | some (v3, s4) =>
                     match skipWS s4 with
                     | [] => none
                     | c2 :: s5 =>
                       if c2 = 44 then parseMembers f (insertKV k3 v3 acc) (skipWS s5)
                       else if c2 = 125 then some (insertKV k3 v3 acc, s5)
                       else none
                 else none) from rfl,
        parseStringBody_escapeString]
      simp [skipWS, isSpaceByte, skipWS_serValue, hval, hins, hrec]
termination_by k v tl _ _ _ _ _ _ _ _ _ _ _ => sizeOf v + sizeOf tl
end

/-! #### Every decoded value is in canonical form

The decoder builds objects by sorted insertion, so whatever it returns
satisfies `wfValue` — the hypothesis the round trip needs. -/

theorem parse_wf (fuel : Nat) :
    (∀ s v r, parseValue fuel s = some (v, r) → wfValue v = true) ∧
    (∀ s lst r, parseItems fuel s = some (lst, r) → wfItems lst = true) ∧
    (∀ s acc ms r, parseMembers fuel acc s = some (ms, r) →
      objSorted acc = true → wfMembers acc = true →
      objSorted ms = true ∧ wfMembers ms = true) := by
  induction fuel with
  | zero =>
    refine ⟨fun s v r h => ?_, fun s lst r h => ?_, fun s acc ms r h _ _ => ?_⟩ <;>
      simp [parseValue, parseItems, parseMembers] at h
  | succ f ih =>
    obtain ⟨ihv, ihi, ihm⟩ := ih
    refine ⟨fun s v r h => ?_, fun s lst r h => ?_, fun s acc ms r h hs hw => ?_⟩
    · cases s with
      | nil => simp [parseValue] at h
      | cons c cs =>
        simp only [parseValue] at h
        repeat' split at h
        all_goals first
          | (simp at h; done)
          | (simp only [Option.some.injEq, Prod.mk.injEq] at h
             obtain ⟨rfl, rfl⟩ := h
             rfl)
          | (rw [Option.map_eq_some] at h
             obtain ⟨p, hp, hfp⟩ := h
             simp only [Prod.mk.injEq] at hfp
             obtain ⟨h1, h2⟩ := hfp
             rw [← h1]
             first
             | rfl
             | (simpa [wfValue] using ihi _ _ _ hp)
             | (have h3 := ihm _ [] _ _ hp rfl rfl
                simp [wfValue, h3.1, h3.2]))
    · simp only [parseItems] at h
      repeat' split at h
      all_goals first
        | (simp at h; done)
        | (simp only [Option.some.injEq, Prod.mk.injEq] at h
           obtain ⟨rfl, rfl⟩ := h
           simp [wfItems, ihv _ _ _ (by assumption)])
        | (rw [Option.map_eq_some] at h
           obtain ⟨p, hp, hfp⟩ := h
           simp only [Prod.mk.injEq] at hfp
           obtain ⟨h1, h2⟩ := hfp
           rw [← h1]
           simp [wfItems, ihv _ _ _ (by assumption), ihi _ _ _ hp])
    · simp only [parseMembers] at h
      repeat' split at h
      all_goals first
        | (simp at h; done)
        | (simp only [Option.some.injEq, Prod.mk.injEq] at h
           obtain ⟨rfl, rfl⟩ := h
           exact ⟨insertKV_objSorted _ _ _ hs,
             insertKV_wfMembers _ _ (ihv _ _ _ (by assumption)) _ hw⟩)
        | (exact ihm _ _ _ _ h (insertKV_objSorted _ _ _ hs)
            (insertKV_wfMembers _ _ (ihv _ _ _ (by assumption)) _ hw))

theorem jsonUnmarshal_wf (data : List Nat) (v : JSONValue)
    (h : jsonUnmarshal data = some v) : wfValue v = true := by
  unfold jsonUnmarshal at h
  split at h
  · next p heq =>
    split at h
    · simp only [Option.some.injEq] at h
      rw [← h]
      exact (parse_wf _).1 _ _ _ heq
    · simp at h
  · simp at h

/-- Round trip of the integer-idealized JSON model: for every byte sequence
the model decode accepts, re-parsing the output of `formatJSON` yields a
value equal (in the canonical representation, which is deep equality of the
Go values — object entry sets, array order, scalar values) to the value
parsed from the original input.  This is a model-level result: the number
domain here is the exact integers, not the `float64` domain the program
decodes into. -/
theorem formatJSON_roundtrip (data : List Nat) (v : JSONValue)
    (h : jsonUnmarshal data = some v) :
    ∃ out, formatJSON data = Except.ok out ∧ jsonUnmarshal out = some v := by
  have hwf := jsonUnmarshal_wf data v h
  refine ⟨jsonMarshalIndent v, by simp [formatJSON, h], ?_⟩
  unfold jsonUnmarshal jsonMarshalIndent
  have hskip : skipWS (serValue v 0) = serValue v 0 := by
    have h2 := skipWS_serValue v 0 []
    simpa using h2
  have hsz : sizeValue v ≤ (serValue v 0).length + 1 :=
    le_trans (sizeValue_le_length v 0) (by omega)
  have hp : parseValue ((serValue v 0).length + 1) (serValue v 0 ++ [])
      = some (v, []) := parseValue_serValue v 0 _ [] hwf hsz rfl
  rw [List.append_nil] at hp
  rw [hskip, hp]
  rfl

/-- Concrete run of the model-level round trip, on the bytes of
`\x7b"b":1,"a":2\x7d` — the decoded object is the canonical (key-sorted)
two-entry map, and re-parsing the indented output recovers it. -/
theorem formatJSON_roundtrip_witness :
    jsonUnmarshal [123, 34, 98, 34, 58, 49, 44, 34, 97, 34, 58, 50, 125]
      = some (JSONValue.obj [([97], JSONValue.num 2), ([98], JSONValue.num 1)]) ∧
    ∃ out,
      formatJSON [123, 34, 98, 34, 58, 49, 44, 34, 97, 34, 58, 50, 125]
        = Except.ok out ∧
      jsonUnmarshal out
        = some (JSONValue.obj [([97], JSONValue.num 2), ([98], JSONValue.num 1)]) :=
  ⟨rfl, formatJSON_roundtrip _ _ rfl⟩

end Eleven
